import Mathlib

/-!
Shallow embedding of the core of `ai-chat-export` (`src/providers/gemini.mjs`
and `src/formatter.mjs`).

Page-side JavaScript runs over the live DOM; we embed it by making each DOM
query's result a field of an explicit page-state record, and transcribing the
script bodies over those fields.  JavaScript strings are modelled as `List Char`
(`Str`): `String.prototype.trim` becomes `jsTrim`, `includes` becomes list
infixes, `length` becomes `List.length`.  The `evaluate`/`JSON.parse` boundary
(an external collaborator: AppleScript bridge plus the JS runtime's JSON
builtins) is modelled as a function `String → Option _`, `none` covering both a
parse failure and a result of the wrong shape; `JSON.stringify`/`JSON.parse`
are modelled at the JSON-value level, where the stringify/parse pair is the
identity.
-/

/-- JavaScript strings, as sequences of characters. -/
abbrev Str := List Char

/-- The whitespace predicate used by `String.prototype.trim`. -/
def wsp (c : Char) : Bool := c.isWhitespace

/-- `s.trim()`: drop whitespace from both ends. -/
def jsTrim (s : Str) : Str :=
  ((s.dropWhile wsp).reverse.dropWhile wsp).reverse

/-- `s.toLowerCase()` (ASCII-relevant part, as used on tag/class names). -/
def lowerStr (s : Str) : Str := s.map Char.toLower

lemma dropWhile_dropWhile_self {α : Type} (p : α → Bool) (l : List α) :
    (l.dropWhile p).dropWhile p = l.dropWhile p := by
  induction l with
  | nil => rfl
  | cons a l ih =>
    cases h : p a <;> simp [List.dropWhile_cons, h, ih]

lemma dropWhile_head_false {α : Type} (p : α → Bool) (l : List α) (a : α)
    (h : (l.dropWhile p).head? = some a) : p a = false := by
  have hm := List.head?_dropWhile_not p l
  rw [h] at hm
  exact hm

lemma dropWhile_eq_self_of_head {α : Type} (p : α → Bool) (l : List α)
    (h : ∀ a, l.head? = some a → p a = false) : l.dropWhile p = l := by
  cases l with
  | nil => rfl
  | cons a l => exact List.dropWhile_cons_of_neg (by simp [h a rfl])

lemma trimRight_prefix (u : Str) : ((u.reverse.dropWhile wsp).reverse) <+: u := by
  have h := List.reverse_prefix.mpr (List.dropWhile_suffix (l := u.reverse) wsp)
  rwa [List.reverse_reverse] at h

lemma jsTrim_prefix (l : Str) : jsTrim l <+: l.dropWhile wsp :=
  trimRight_prefix (l.dropWhile wsp)

lemma jsTrim_head_false (l : Str) (a : Char)
    (h : (jsTrim l).head? = some a) : wsp a = false := by
  obtain ⟨t, ht⟩ := jsTrim_prefix l
  apply dropWhile_head_false wsp l a
  rw [← ht]
  cases hj : jsTrim l with
  | nil => rw [hj] at h; simp at h
  | cons b s =>
    rw [hj] at h
    simp only [List.head?_cons, Option.some.injEq] at h
    simp [h]

lemma jsTrim_reverse (l : Str) :
    (jsTrim l).reverse = (l.dropWhile wsp).reverse.dropWhile wsp := by
  simp [jsTrim]

lemma jsTrim_idem (l : Str) : jsTrim (jsTrim l) = jsTrim l := by
  have h1 : (jsTrim l).dropWhile wsp = jsTrim l :=
    dropWhile_eq_self_of_head wsp _ (jsTrim_head_false l)
  have h2 : (jsTrim l).reverse.dropWhile wsp = (jsTrim l).reverse := by
    rw [jsTrim_reverse, dropWhile_dropWhile_self]
  show (((jsTrim l).dropWhile wsp).reverse.dropWhile wsp).reverse = jsTrim l
  rw [h1, h2, List.reverse_reverse]

/-! ## Data model: sidebar links and messages -/

/-- A sidebar anchor as the page query `a[href*="/app/"]` returns it:
its resolved `href` and its `textContent` (`null` coerced to `''`). -/
structure Anchor where
  href : Str
  textContent : Str
deriving DecidableEq

/-- A discovered chat link `{ href, text }`. -/
structure ChatLink where
  href : Str
  text : Str
deriving DecidableEq

/-- An extracted message `{ role, content }`.  Roles are plain labels, so they
stay as Lean `String`s; content undergoes string operations, so it is `Str`. -/
structure Msg where
  role : String
  content : Str
deriving DecidableEq

/-- `export const url` of the gemini provider. -/
def url : String := "https://gemini.google.com/app"

/-! ## Chat discovery: the in-page link pipeline (gemini.mjs lines 106-119) -/

/-- `a => ({ href: a.href, text: (a.textContent || '').trim().split('\n')[0].trim() })`.
`split('\n')[0]` is the text up to the first newline. -/
def anchorToLink (a : Anchor) : ChatLink :=
  { href := a.href,
    text := jsTrim ((jsTrim a.textContent).takeWhile (fun c => c ≠ '\n')) }

/-- The `filter` predicate over mapped links. -/
def keepLink (l : ChatLink) : Bool :=
  !(decide ("/app".data <:+ l.href)) &&
  !(decide ("/app/".data <:+ l.href)) &&
  !(decide ("/download".data <:+: l.href)) &&
  !(decide ("/settings".data <:+: l.href)) &&
  !(decide ("/extensions".data <:+: l.href)) &&
  !(decide ("accounts.google.com".data <:+: l.href))

/-- The page-side snippet of `collectChats`: map anchors to links, filter. -/
def sidebarLinks (anchors : List Anchor) : List ChatLink :=
  (anchors.map anchorToLink).filter keepLink

/-! ## Chat discovery: Node-side dedup (gemini.mjs lines 121-132) -/

/-- The `seen`-set filter of `collectChats`, keeping each href's first occurrence. -/
def dedupeGo (seen : List Str) : List ChatLink → List ChatLink
  | [] => []
  | l :: ls =>
    if l.href ∈ seen then dedupeGo seen ls
    else l :: dedupeGo (l.href :: seen) ls

def dedupeByHref (links : List ChatLink) : List ChatLink := dedupeGo [] links

/-- `collectChats` after the evaluate call: `JSON.parse` of the returned string
either yields the link list (`some`) or throws (`none`, also covering a result
of the wrong shape, since the `catch` wraps the whole block); the catch arm
returns `[]`. -/
def collectChats (parsed : Option (List ChatLink)) : List ChatLink :=
  match parsed with
  | some links => dedupeByHref links
  | none => []

/-! ## Message extraction: page state -/

/-- One element matched by the Strategy-1 selector
`'user-query, model-response, .conversation-turn, [class*="turn-container"]'`. -/
structure TurnEl where
  /-- `turn.tagName` (DOM tag names are uppercase; the code lowercases). -/
  tagName : Str
  /-- `turn.classList`. -/
  classes : List Str
  /-- `turn.querySelector('[class*="user"]') !== null`. -/
  hasUserDescendant : Bool
  /-- `turn.innerText` (the code guards it with `?.`). -/
  innerText : Option Str
deriving DecidableEq

/-- One element matched by a Strategy-2 selector, with its
`getBoundingClientRect().top`.  Vertical positions are modelled as integers. -/
structure PosEl where
  innerText : Option Str
  y : Int
deriving DecidableEq

/-- One element matched by `[data-message-author-role]`; the selector guarantees
the attribute is present, so its value is a plain string. -/
structure DataEl where
  role : String
  innerText : Option Str
deriving DecidableEq

/-- One direct child of the Strategy-4 container. -/
structure ChildEl where
  innerText : Option Str
  /-- `el.className || ''`. -/
  className : Str
  /-- `el.tagName || ''`. -/
  tagName : Str
deriving DecidableEq

/-- The best-guess conversation container of Strategy 4. -/
structure ContainerEl where
  children : List ChildEl
  innerText : Option Str
deriving DecidableEq

/-- Everything the extraction script observes of the page: the result of each
of its DOM queries. -/
structure PageState where
  turns : List TurnEl
  queryEls : List PosEl
  responseEls : List PosEl
  dataEls : List DataEl
  container : Option ContainerEl
deriving DecidableEq

/-! ## Message extraction: the four strategies (gemini.mjs lines 167-247) -/

/-- Strategy 1's user test: `tag === 'user-query' ||
turn.classList.contains('user-turn') || turn.querySelector('[class*="user"]') !== null`. -/
def turnIsUser (t : TurnEl) : Bool :=
  decide (lowerStr t.tagName = "user-query".data) ||
  decide ("user-turn".data ∈ t.classes) ||
  t.hasUserDescendant

/-- Strategy 1's loop body: push `{role, content: text}` when
`text && text.length > 1` (with `text = turn.innerText?.trim()`). -/
def turnMsg (t : TurnEl) : Option Msg :=
  match t.innerText with
  | none => none
  | some raw =>
    let text := jsTrim raw
    if 1 < text.length then
      some { role := if turnIsUser t then "User" else "Gemini", content := text }
    else none

/-- Strategy 1: the messages collected from the turn elements. -/
def strategy1 (p : PageState) : List Msg := p.turns.filterMap turnMsg

/-- A Strategy-2 `allTurns` entry `{ role, content, y }`. -/
structure Turn where
  role : String
  content : Option Str
  y : Int
deriving DecidableEq

/-- Strategy 2's merge: query elements pushed first tagged `'User'`, then
response elements tagged `'Gemini'`, each with `content: el.innerText?.trim()`
and `y: el.getBoundingClientRect().top`. -/
def taggedTurns (p : PageState) : List Turn :=
  p.queryEls.map (fun el => { role := "User", content := el.innerText.map jsTrim, y := el.y }) ++
  p.responseEls.map (fun el => { role := "Gemini", content := el.innerText.map jsTrim, y := el.y })

/-- The ordering used by `allTurns.sort((a, b) => a.y - b.y)`. -/
def yle (a b : Turn) : Prop := a.y ≤ b.y

instance : DecidableRel yle := fun a b => inferInstanceAs (Decidable (a.y ≤ b.y))

instance : IsTotal Turn yle := ⟨fun a b => Int.le_total a.y b.y⟩

instance : IsTrans Turn yle := ⟨fun _ _ _ h h' => Int.le_trans h h'⟩

/-- The filter `t => t.content && t.content.length > 1`. -/
def turnKeep (t : Turn) : Bool :=
  match t.content with
  | some c => decide (1 < c.length)
  | none => false

/-- The projection `({role, content}) => ({role, content})`. -/
def turnProj (t : Turn) : Msg := { role := t.role, content := t.content.getD [] }

/-- Strategy 2's `cleaned` list before the final projection: merge, sort by
vertical position (the V8 sort is stable, as is `List.insertionSort`), filter. -/
def cleanedTurns (p : PageState) : List Turn :=
  (List.insertionSort yle (taggedTurns p)).filter turnKeep

/-- Strategy 2: `cleaned`. -/
def strategy2 (p : PageState) : List Msg := (cleanedTurns p).map turnProj

/-- Strategy 3's loop body: push whenever `text` is truthy, mapping the `'user'`
attribute value to `'User'` and anything else to `'Gemini'`. -/
def dataMsg (d : DataEl) : Option Msg :=
  match d.innerText with
  | none => none
  | some raw =>
    let text := jsTrim raw
    if text = [] then none
    else some { role := if d.role = "user" then "User" else "Gemini", content := text }

/-- Strategy 3: the messages collected from `[data-message-author-role]` elements. -/
def strategy3 (p : PageState) : List Msg := p.dataEls.filterMap dataMsg

/-- The case-insensitive regex `/user|query|human|prompt|request/i.test(cls)`:
some alternative occurs in the lowercased class+tag string. -/
def hasHumanMarker (cls : Str) : Bool :=
  decide ("user".data <:+: lowerStr cls) ||
  decide ("query".data <:+: lowerStr cls) ||
  decide ("human".data <:+: lowerStr cls) ||
  decide ("prompt".data <:+: lowerStr cls) ||
  decide ("request".data <:+: lowerStr cls)

/-- Strategy 4's loop body: skip when `!text || text.length < 2`, else classify
by `(el.className || '') + ' ' + (el.tagName || '')`. -/
def childMsg (el : ChildEl) : Option Msg :=
  match el.innerText with
  | none => none
  | some raw =>
    let text := jsTrim raw
    if text.length < 2 then none
    else
      let cls := el.className ++ (' ' :: el.tagName)
      some { role := if hasHumanMarker cls then "User" else "Gemini", content := text }

/-- Strategy 4, including its internal last resort: the container's direct
children, and when none is usable, a single `'Unknown'` message holding the
container's whole (trimmed) visible text when that is truthy. -/
def strategy4 (p : PageState) : List Msg :=
  match p.container with
  | none => []
  | some cont =>
    let results := cont.children.filterMap childMsg
    if results ≠ [] then results
    else
      match cont.innerText with
      | none => []
      | some raw =>
        let text := jsTrim raw
        if text = [] then [] else [{ role := "Unknown", content := text }]

/-- The extraction script (the IIFE of gemini.mjs lines 168-246), transcribed
with the source's guard structure: each strategy block returns its `results`
when the block's selector matched and the collected list is non-empty,
otherwise control falls through to the next block. -/
def extractMessages (p : PageState) : List Msg :=
  let results1 := p.turns.filterMap turnMsg
  if p.turns.length > 0 ∧ results1 ≠ [] then results1
  else
    let cleaned := ((List.insertionSort yle (taggedTurns p)).filter turnKeep).map turnProj
    if (p.queryEls.length > 0 ∨ p.responseEls.length > 0) ∧ cleaned ≠ [] then cleaned
    else
      let results3 := p.dataEls.filterMap dataMsg
      if p.dataEls.length > 0 ∧ results3 ≠ [] then results3
      else strategy4 p

/-- `extractMessages` after the evaluate call (gemini.mjs lines 249-253):
`JSON.parse` succeeds (`some`) or the `catch` arm returns `[]`. -/
def extractMessagesResult (parsed : Option (List Msg)) : List Msg :=
  match parsed with
  | some ms => ms
  | none => []

/-! ## Discovery scroll loop (gemini.mjs lines 42-94)

The loop observes the page's link count through sleep-separated polls; we model
the page as a stream `c : Nat → Nat` of those observations.  Round `i` reads
`countBefore = c i`, scrolls, sleeps, and reads `countAfter = c (i + 1)` (no
sleep separates one round's `countAfter` from the next round's `countBefore`,
so they are the same observation).  The function returns the number of loop
iterations executed. -/

def scrollSidebarGo (c : Nat → Nat) (stableRounds i : Nat) : Nat → Nat
  | 0 => i
  | fuel + 1 =>
    if c (i + 1) = c i then
      if stableRounds + 1 ≥ 5 then i + 1
      else scrollSidebarGo c (stableRounds + 1) (i + 1) fuel
    else scrollSidebarGo c 0 (i + 1) fuel

/-- `scrollSidebarToLoadAll`: up to 100 rounds, breaking once `stableRounds`
reaches 5. -/
def scrollSidebarToLoadAll (c : Nat → Nat) : Nat := scrollSidebarGo c 0 0 100

/-- The value of the `stableRounds` counter before round `r` (had no break
occurred): incremented by an unchanged poll pair, reset to 0 by a change. -/
def stableCount (c : Nat → Nat) : Nat → Nat
  | 0 => 0
  | j + 1 => if c (j + 1) = c j then stableCount c j + 1 else 0

/-! ## Output formatting (formatter.mjs lines 32-45)

`JSON.stringify`/`JSON.parse` are the JS runtime's; the repository's own code
builds the object and the filtered, reduced messages array.  We embed at the
JSON-value level (stringify then parse is the identity on such values). -/

inductive Json where
  | str : String → Json
  | arr : List Json → Json
  | obj : List (String × Json) → Json

/-- Look a key up in an object (first binding wins, as in a JS object literal
no key repeats here anyway). -/
def Json.getField : Json → String → Option Json
  | .obj fields, k => (fields.find? (fun f => f.fst = k)).map (·.snd)
  | _, _ => none

/-- The JSON value of one reduced message `({role, content}) => ({role, content})`. -/
def msgJson (m : Msg) : Json :=
  .obj [("role", .str m.role), ("content", .str (String.mk m.content))]

/-- `formatAsJSON(title, url, messages)` as a JSON value; `exportedAt` is
`new Date().toISOString()`, threaded in as a parameter.  The `filter` keeps
messages whose `content` is truthy (a non-empty string). -/
def formatAsJSON (title url exportedAt : String) (messages : List Msg) : Json :=
  .obj [("title", .str title),
        ("url", .str url),
        ("exportedAt", .str exportedAt),
        ("messages", .arr (((messages.filter (fun m => m.content ≠ [])).map
          (fun m => { role := m.role, content := m.content })).map msgJson))]

/-- Decode one message object back to `{role, content}`. -/
def decodeMsg (j : Json) : Option Msg :=
  match j.getField "role", j.getField "content" with
  | some (.str r), some (.str c) => some { role := r, content := c.data }
  | _, _ => none

/-- Decode the `messages` array of a parsed export document. -/
def decodeMessages (j : Json) : Option (List Msg) :=
  match j.getField "messages" with
  | some (.arr ms) => ms.mapM decodeMsg
  | _ => none

/-! ## The cascade structure of extractMessages -/

lemma strategy1_src_ne {p : PageState} (h : strategy1 p ≠ []) : 0 < p.turns.length := by
  refine List.length_pos.mpr ?_
  intro he
  exact h (by simp [strategy1, he])

lemma strategy3_src_ne {p : PageState} (h : strategy3 p ≠ []) : 0 < p.dataEls.length := by
  refine List.length_pos.mpr ?_
  intro he
  exact h (by simp [strategy3, he])

lemma strategy2_src_ne {p : PageState} (h : strategy2 p ≠ []) :
    0 < p.queryEls.length ∨ 0 < p.responseEls.length := by
  by_contra hc
  push_neg at hc
  obtain ⟨hq, hr⟩ := hc
  have hq' : p.queryEls = [] := List.length_eq_zero.mp (Nat.le_zero.mp hq)
  have hr' : p.responseEls = [] := List.length_eq_zero.mp (Nat.le_zero.mp hr)
  apply h
  unfold strategy2 cleanedTurns taggedTurns
  rw [hq', hr']
  rfl

/-- The script is the first-non-empty-result cascade of the four strategies. -/
lemma extractMessages_eq (p : PageState) :
    extractMessages p =
      if strategy1 p ≠ [] then strategy1 p
      else if strategy2 p ≠ [] then strategy2 p
      else if strategy3 p ≠ [] then strategy3 p
      else strategy4 p := by
  show (if 0 < p.turns.length ∧ strategy1 p ≠ [] then strategy1 p
      else if (0 < p.queryEls.length ∨ 0 < p.responseEls.length) ∧ strategy2 p ≠ []
        then strategy2 p
      else if 0 < p.dataEls.length ∧ strategy3 p ≠ [] then strategy3 p
      else strategy4 p) = _
  by_cases h1 : strategy1 p = []
  · by_cases h2 : strategy2 p = []
    · by_cases h3 : strategy3 p = []
      · simp [h1, h2, h3]
      · simp [h1, h2, h3, strategy3_src_ne h3]
    · simp [h1, h2, strategy2_src_ne h2]
  · simp [h1, strategy1_src_ne h1]

/-- C1: the four extraction strategies are evaluated in fixed priority order and
the first one with a non-empty result wins; its result is returned and later
strategies are not consulted — in particular, whenever Strategy 1 produces
messages they are the whole result, whatever Strategies 2-4 would produce. -/
theorem extract_cascade_priority (p : PageState) :
    extractMessages p =
      if strategy1 p ≠ [] then strategy1 p
      else if strategy2 p ≠ [] then strategy2 p
      else if strategy3 p ≠ [] then strategy3 p
      else strategy4 p :=
  extractMessages_eq p

/-! ## Deduplication -/

lemma dedupeGo_sublist (seen : List Str) (ls : List ChatLink) :
    (dedupeGo seen ls).Sublist ls := by
  induction ls generalizing seen with
  | nil => simp [dedupeGo]
  | cons x xs ih =>
    rw [dedupeGo]
    by_cases h : x.href ∈ seen
    · rw [if_pos h]
      exact (ih seen).cons x
    · rw [if_neg h]
      exact (ih _).cons₂ x

lemma dedupeGo_not_mem_seen (seen : List Str) (ls : List ChatLink) :
    ∀ l ∈ dedupeGo seen ls, l.href ∉ seen := by
  induction ls generalizing seen with
  | nil => simp [dedupeGo]
  | cons x xs ih =>
    rw [dedupeGo]
    by_cases h : x.href ∈ seen
    · rw [if_pos h]
      exact ih seen
    · rw [if_neg h]
      intro l hl
      rcases List.mem_cons.mp hl with rfl | hl
      · exact h
      · intro hm
        exact ih (x.href :: seen) l hl (List.mem_cons_of_mem _ hm)

lemma dedupeGo_nodup (seen : List Str) (ls : List ChatLink) :
    ((dedupeGo seen ls).map (fun l => l.href)).Nodup := by
  induction ls generalizing seen with
  | nil => simp [dedupeGo]
  | cons x xs ih =>
    rw [dedupeGo]
    by_cases h : x.href ∈ seen
    · rw [if_pos h]
      exact ih seen
    · rw [if_neg h]
      simp only [List.map_cons, List.nodup_cons]
      refine ⟨?_, ih _⟩
      intro hm
      rcases List.mem_map.mp hm with ⟨l, hl, he⟩
      exact dedupeGo_not_mem_seen _ _ l hl (he ▸ List.mem_cons_self _ _)

lemma dedupeGo_covers (seen : List Str) (ls : List ChatLink) :
    ∀ l ∈ ls, l.href ∈ seen ∨ l.href ∈ (dedupeGo seen ls).map (fun l2 => l2.href) := by
  induction ls generalizing seen with
  | nil => simp
  | cons x xs ih =>
    intro l hl
    rw [dedupeGo]
    by_cases h : x.href ∈ seen
    · rw [if_pos h]
      rcases List.mem_cons.mp hl with rfl | hl2
      · exact Or.inl h
      · exact ih seen l hl2
    · rw [if_neg h]
      rcases List.mem_cons.mp hl with rfl | hl2
      · right
        simp
      · rcases ih (x.href :: seen) l hl2 with hs | ho
        · rcases List.mem_cons.mp hs with he | hs2
          · right
            simp [he]
          · exact Or.inl hs2
        · right
          simp only [List.map_cons, List.mem_cons]
          exact Or.inr ho

lemma dedupeGo_first (seen : List Str) (ls : List ChatLink) :
    ∀ l ∈ dedupeGo seen ls, ls.find? (fun l2 => l2.href = l.href) = some l := by
  induction ls generalizing seen with
  | nil => simp [dedupeGo]
  | cons x xs ih =>
    rw [dedupeGo]
    by_cases h : x.href ∈ seen
    · rw [if_pos h]
      intro l hl
      have hne : l.href ≠ x.href := by
        intro he
        exact dedupeGo_not_mem_seen seen xs l hl (he ▸ h)
      rw [List.find?_cons_of_neg _ (by simp; exact fun he => hne (Eq.symm he)), ih seen l hl]
    · rw [if_neg h]
      intro l hl
      rcases List.mem_cons.mp hl with rfl | hl2
      · rw [List.find?_cons_of_pos _ (by simp)]
      · have hne : l.href ≠ x.href := by
          intro he
          exact dedupeGo_not_mem_seen _ xs l hl2 (he ▸ List.mem_cons_self _ _)
        rw [List.find?_cons_of_neg _ (by simp; exact fun he => hne (Eq.symm he)), ih _ l hl2]

/-- C3: chat discovery returns each unique href exactly once, deduplicated by
href and preserving first-seen order: the result is a sublist of the input (so
input order is kept), its hrefs are pairwise distinct, every input href is
represented, and each returned link is the first input link bearing its href. -/
theorem collectChats_dedupes (links : List ChatLink) :
    (dedupeByHref links).Sublist links ∧
    ((dedupeByHref links).map (fun l => l.href)).Nodup ∧
    (∀ l ∈ links, l.href ∈ (dedupeByHref links).map (fun l2 => l2.href)) ∧
    (∀ l ∈ dedupeByHref links, links.find? (fun l2 => l2.href = l.href) = some l) := by
  refine ⟨dedupeGo_sublist [] links, dedupeGo_nodup [] links, ?_, dedupeGo_first [] links⟩
  intro l hl
  rcases dedupeGo_covers [] links l hl with h | h
  · simp at h
  · exact h

/-- A concrete raw-link read sequence with a repeated address. -/
def demoLinks : List ChatLink :=
  [{ href := "https://gemini.google.com/app/a1".data, text := "first".data },
   { href := "https://gemini.google.com/app/b2".data, text := "second".data },
   { href := "https://gemini.google.com/app/a1".data, text := "repeat".data }]

theorem collectChats_dedupes_witness :
    demoLinks.find?
      (fun l2 => l2.href = "https://gemini.google.com/app/a1".data) =
      some { href := "https://gemini.google.com/app/a1".data, text := "first".data } :=
  (collectChats_dedupes demoLinks).2.2.2
    { href := "https://gemini.google.com/app/a1".data, text := "first".data } (by decide)

/-! ## Discovery filtering -/

/-- C4: whatever the anchor list and its order, discovery output never contains
the bare application root (with or without a trailing slash) nor an address
containing one of the excluded fragments. -/
theorem collectChats_filters (anchors : List Anchor) :
    ∀ l ∈ dedupeByHref (sidebarLinks anchors),
      l.href ≠ url.data ∧
      l.href ≠ (url ++ "/").data ∧
      ¬ ("/download".data <:+: l.href) ∧
      ¬ ("/settings".data <:+: l.href) ∧
      ¬ ("/extensions".data <:+: l.href) ∧
      ¬ ("accounts.google.com".data <:+: l.href) := by
  intro l hl
  have hmem : l ∈ sidebarLinks anchors := (dedupeGo_sublist [] _).subset hl
  have hk : keepLink l = true := List.of_mem_filter hmem
  unfold keepLink at hk
  simp only [Bool.and_eq_true, Bool.not_eq_true', decide_eq_false_iff_not] at hk
  obtain ⟨⟨⟨⟨⟨h1, h2⟩, h3⟩, h4⟩, h5⟩, h6⟩ := hk
  refine ⟨?_, ?_, h3, h4, h5, h6⟩
  · intro he
    exact h1 (by rw [he]; decide)
  · intro he
    exact h2 (by rw [he]; decide)

/-- A concrete anchor read. -/
def demoAnchors : List Anchor :=
  [{ href := "https://gemini.google.com/app/abc123".data,
     textContent := "  My chat\nextra".data }]

theorem collectChats_filters_witness :
    "https://gemini.google.com/app/abc123".data ≠ url.data ∧
    "https://gemini.google.com/app/abc123".data ≠ (url ++ "/").data ∧
    ¬ ("/download".data <:+: "https://gemini.google.com/app/abc123".data) ∧
    ¬ ("/settings".data <:+: "https://gemini.google.com/app/abc123".data) ∧
    ¬ ("/extensions".data <:+: "https://gemini.google.com/app/abc123".data) ∧
    ¬ ("accounts.google.com".data <:+: "https://gemini.google.com/app/abc123".data) :=
  collectChats_filters demoAnchors
    { href := "https://gemini.google.com/app/abc123".data, text := "My chat".data }
    (by decide)

/-! ## Error handling -/

/-- C6: for any evaluation-result string whose parse fails — in particular the
empty string a failed evaluate call returns — both operations return the empty
sequence; the catch arm replaces the exception with `[]`. -/
theorem parse_failure_yields_empty
    (parseLinks : String → Option (List ChatLink))
    (parseMsgs : String → Option (List Msg)) (s : String)
    (hL : parseLinks s = none) (hM : parseMsgs s = none) :
    collectChats (parseLinks s) = [] ∧ extractMessagesResult (parseMsgs s) = [] := by
  rw [hL, hM]
  exact ⟨rfl, rfl⟩

theorem parse_failure_yields_empty_witness :
    collectChats ((fun _ => none) "") = [] ∧
    extractMessagesResult ((fun _ => none) "") = [] :=
  parse_failure_yields_empty (fun _ => none) (fun _ => none) "" rfl rfl

/-! ## Formatter round-trip -/

lemma decodeMsg_msgJson (m : Msg) : decodeMsg (msgJson m) = some m := by
  rfl

lemma mapM_decodeMsg (ms : List Msg) :
    (ms.map msgJson).mapM decodeMsg = some ms := by
  induction ms with
  | nil => rfl
  | cons m ms ih =>
    rw [List.map_cons, List.mapM_cons, decodeMsg_msgJson, ih]
    rfl

/-- C8: parsing the document produced by `formatAsJSON` yields back the input
`title` and `url`, and a `messages` array equal to the input messages filtered
to non-empty content, each reduced to the fields role and content. -/
theorem formatAsJSON_roundtrip (title u exportedAt : String) (messages : List Msg) :
    (formatAsJSON title u exportedAt messages).getField "title" = some (.str title) ∧
    (formatAsJSON title u exportedAt messages).getField "url" = some (.str u) ∧
    decodeMessages (formatAsJSON title u exportedAt messages) =
      some (messages.filter (fun m => m.content ≠ [])) := by
  refine ⟨rfl, rfl, ?_⟩
  have h1 : decodeMessages (formatAsJSON title u exportedAt messages) =
      (((messages.filter (fun m => m.content ≠ [])).map
        (fun m => { role := m.role, content := m.content : Msg })).map msgJson).mapM
        decodeMsg := rfl
  rw [h1, mapM_decodeMsg]
  rw [show (fun (m : Msg) => ({ role := m.role, content := m.content } : Msg)) =
    (id : Msg → Msg) from rfl, List.map_id]

/-! ## Scroll-loop stabilization -/

lemma stableCount_succ (c : Nat → Nat) (j : Nat) :
    stableCount c (j + 1) = if c (j + 1) = c j then stableCount c j + 1 else 0 := rfl

lemma scrollSidebarGo_spec (c : Nat → Nat) :
    ∀ fuel i, stableCount c i < 5 →
      i ≤ scrollSidebarGo c (stableCount c i) i fuel ∧
      scrollSidebarGo c (stableCount c i) i fuel ≤ i + fuel ∧
      (∀ r, i < r → r < scrollSidebarGo c (stableCount c i) i fuel → stableCount c r < 5) ∧
      (scrollSidebarGo c (stableCount c i) i fuel < i + fuel →
        5 ≤ stableCount c (scrollSidebarGo c (stableCount c i) i fuel)) := by
  intro fuel
  induction fuel with
  | zero =>
    intro i hi
    refine ⟨Nat.le_refl i, by simp [scrollSidebarGo], ?_, ?_⟩
    · intro r h1 h2
      simp only [scrollSidebarGo] at h2
      omega
    · intro h
      simp only [scrollSidebarGo] at h
      omega
  | succ fuel ih =>
    intro i hi
    rw [scrollSidebarGo]
    by_cases hc : c (i + 1) = c i
    · rw [if_pos hc]
      have hs : stableCount c (i + 1) = stableCount c i + 1 := by
        rw [stableCount_succ, if_pos hc]
      by_cases h5 : stableCount c i + 1 ≥ 5
      · rw [if_pos h5]
        refine ⟨Nat.le_succ i, by omega, ?_, ?_⟩
        · intro r h1 h2
          omega
        · intro _
          omega
      · rw [if_neg h5]
        have hlt : stableCount c (i + 1) < 5 := by omega
        have hrec := ih (i + 1) hlt
        rw [hs] at hrec
        obtain ⟨ha, hb, hmin, hterm⟩ := hrec
        refine ⟨by omega, by omega, ?_, ?_⟩
        · intro r h1 h2
          by_cases hr : r = i + 1
          · subst hr
            omega
          · exact hmin r (by omega) h2
        · intro h
          exact hterm (by omega)
    · rw [if_neg hc]
      have hs : stableCount c (i + 1) = 0 := by
        rw [stableCount_succ, if_neg hc]
      have hrec := ih (i + 1) (by omega)
      rw [hs] at hrec
      obtain ⟨ha, hb, hmin, hterm⟩ := hrec
      refine ⟨by omega, by omega, ?_, ?_⟩
      · intro r h1 h2
        by_cases hr : r = i + 1
        · subst hr
          omega
        · exact hmin r (by omega) h2
      · intro h
        exact hterm (by omega)

lemma scrollSidebar_spec (c : Nat → Nat) :
    scrollSidebarToLoadAll c ≤ 100 ∧
    ∀ r, r < 100 →
      (scrollSidebarToLoadAll c = r ↔
        (5 ≤ stableCount c r ∧ ∀ j, j < r → stableCount c j < 5)) := by
  have h0 : stableCount c 0 = 0 := rfl
  have hspec := scrollSidebarGo_spec c 100 0 (by rw [h0]; omega)
  rw [h0] at hspec
  obtain ⟨ha, hb, hmin, hterm⟩ := hspec
  simp only [scrollSidebarToLoadAll]
  constructor
  · omega
  · intro r hr
    constructor
    · intro he
      subst he
      refine ⟨hterm (by omega), ?_⟩
      intro j hj
      by_cases hj0 : j = 0
      · subst hj0
        rw [h0]
        omega
      · exact hmin j (by omega) hj
    · intro hrs
      obtain ⟨h5, hminr⟩ := hrs
      by_contra hne
      rcases Nat.lt_or_ge (scrollSidebarGo c 0 0 100) r with hlt | hge
      · have hx : 5 ≤ stableCount c (scrollSidebarGo c 0 0 100) := hterm (by omega)
        have hy := hminr _ hlt
        omega
      · have hrR : r < scrollSidebarGo c 0 0 100 := by omega
        have h0r : 0 < r := by
          by_contra hz
          have : r = 0 := by omega
          subst this
          rw [h0] at h5
          omega
        have := hmin r h0r hrR
        omega

/-- The synthetic read sequence `[3,5,5,7,7,7,7,7,7]` of Section 8 of the spec
(reads past its end keep the final value). -/
def demoCounts : Nat → Nat := fun i => [3, 5, 5, 7, 7, 7, 7, 7, 7].getD i 7

/-- C2: the discovery scroll loop terminates exactly when the count has been
unchanged for 5 consecutive polls (the stable counter resets on any change and
a single unchanged poll does not terminate it), always ends after at most 100
rounds, and on the synthetic sequence `[3,5,5,7,7,7,7,7,7]` it terminates after
exactly 8 rounds, i.e. exactly once the count has been 7 for the 5 consecutive
stable polls its last five rounds observe, not at the earlier single 5-5 stall. -/
theorem scroll_loop_termination :
    (∀ c : Nat → Nat,
      scrollSidebarToLoadAll c ≤ 100 ∧
      ∀ r, r < 100 →
        (scrollSidebarToLoadAll c = r ↔
          (5 ≤ stableCount c r ∧ ∀ j, j < r → stableCount c j < 5))) ∧
    scrollSidebarToLoadAll demoCounts = 8 ∧
    (∀ j, 3 ≤ j → j ≤ 8 → demoCounts j = 7) ∧
    stableCount demoCounts 8 = 5 ∧
    (∀ r, r < 8 → stableCount demoCounts r < 5) :=
  ⟨scrollSidebar_spec, by decide, by decide, by decide, by decide⟩

theorem scroll_loop_termination_witness :
    scrollSidebarToLoadAll demoCounts = 8 :=
  ((scroll_loop_termination.1 demoCounts).2 8 (by decide)).mpr
    ⟨by decide, by decide⟩

/-! ## Per-strategy facts about produced messages -/

lemma turnMsg_some {t : TurnEl} {m : Msg} (h : turnMsg t = some m) :
    ∃ raw, t.innerText = some raw ∧ m.content = jsTrim raw ∧ 1 < m.content.length ∧
      (m.role = "User" ∨ m.role = "Gemini") := by
  cases hit : t.innerText with
  | none => simp [turnMsg, hit] at h
  | some raw =>
    simp only [turnMsg, hit] at h
    by_cases hl : 1 < (jsTrim raw).length
    · rw [if_pos hl] at h
      injection h with h2
      subst h2
      refine ⟨raw, rfl, rfl, hl, ?_⟩
      cases hb : turnIsUser t <;> simp [hb]
    · rw [if_neg hl] at h
      cases h

lemma dataMsg_some {d : DataEl} {m : Msg} (h : dataMsg d = some m) :
    ∃ raw, d.innerText = some raw ∧ m.content = jsTrim raw ∧ m.content ≠ [] ∧
      (m.role = "User" ∨ m.role = "Gemini") := by
  cases hit : d.innerText with
  | none => simp [dataMsg, hit] at h
  | some raw =>
    simp only [dataMsg, hit] at h
    by_cases he : jsTrim raw = []
    · rw [if_pos he] at h
      cases h
    · rw [if_neg he] at h
      injection h with h2
      subst h2
      refine ⟨raw, rfl, rfl, he, ?_⟩
      by_cases hb : d.role = "user" <;> simp [hb]

lemma childMsg_some {el : ChildEl} {m : Msg} (h : childMsg el = some m) :
    ∃ raw, el.innerText = some raw ∧ m.content = jsTrim raw ∧ 2 ≤ m.content.length ∧
      (m.role = "User" ∨ m.role = "Gemini") := by
  cases hit : el.innerText with
  | none => simp [childMsg, hit] at h
  | some raw =>
    simp only [childMsg, hit] at h
    by_cases hl : (jsTrim raw).length < 2
    · rw [if_pos hl] at h
      cases h
    · rw [if_neg hl] at h
      injection h with h2
      subst h2
      refine ⟨raw, rfl, rfl, ?_, ?_⟩
      · show 2 ≤ (jsTrim raw).length
        omega
      · cases hb : hasHumanMarker (el.className ++ (' ' :: el.tagName)) <;> simp [hb]

lemma strategy1_mem {p : PageState} {m : Msg} (h : m ∈ strategy1 p) :
    ∃ raw, m.content = jsTrim raw ∧ 1 < m.content.length ∧
      (m.role = "User" ∨ m.role = "Gemini") := by
  rcases List.mem_filterMap.mp h with ⟨t, _, ht⟩
  obtain ⟨raw, _, hc, hl, hr⟩ := turnMsg_some ht
  exact ⟨raw, hc, hl, hr⟩

lemma strategy3_mem {p : PageState} {m : Msg} (h : m ∈ strategy3 p) :
    ∃ raw, m.content = jsTrim raw ∧ m.content ≠ [] ∧
      (m.role = "User" ∨ m.role = "Gemini") := by
  rcases List.mem_filterMap.mp h with ⟨d, _, hd⟩
  obtain ⟨raw, _, hc, hne, hr⟩ := dataMsg_some hd
  exact ⟨raw, hc, hne, hr⟩

lemma strategy2_mem {p : PageState} {m : Msg} (h : m ∈ strategy2 p) :
    ∃ raw, m.content = jsTrim raw ∧ 1 < m.content.length ∧
      (m.role = "User" ∨ m.role = "Gemini") := by
  rcases List.mem_map.mp h with ⟨t, ht, rfl⟩
  have hk : turnKeep t = true := List.of_mem_filter ht
  have ht2 : t ∈ taggedTurns p :=
    (List.perm_insertionSort yle (taggedTurns p)).subset (List.mem_of_mem_filter ht)
  have hshape : (t.role = "User" ∨ t.role = "Gemini") ∧
      (t.content = none ∨ ∃ raw, t.content = some (jsTrim raw)) := by
    rcases List.mem_append.mp ht2 with hq | hr
    · rcases List.mem_map.mp hq with ⟨el, _, he⟩
      subst he
      refine ⟨Or.inl rfl, ?_⟩
      cases el.innerText with
      | none => exact Or.inl rfl
      | some raw => exact Or.inr ⟨raw, rfl⟩
    · rcases List.mem_map.mp hr with ⟨el, _, he⟩
      subst he
      refine ⟨Or.inr rfl, ?_⟩
      cases el.innerText with
      | none => exact Or.inl rfl
      | some raw => exact Or.inr ⟨raw, rfl⟩
  rcases hshape.2 with hcon | ⟨raw, hcon⟩
  · rw [turnKeep, hcon] at hk
    cases hk
  · have hlen : 1 < (jsTrim raw).length := by
      rw [turnKeep, hcon] at hk
      exact of_decide_eq_true hk
    refine ⟨raw, ?_, ?_, ?_⟩
    · simp [turnProj, hcon]
    · simpa [turnProj, hcon] using hlen
    · simpa [turnProj] using hshape.1

lemma strategy4_mem {p : PageState} {m : Msg} (h : m ∈ strategy4 p) :
    (∃ raw, m.content = jsTrim raw ∧ m.content ≠ []) ∧
    (m.role = "User" ∨ m.role = "Gemini" ∨ m.role = "Unknown") := by
  cases hco : p.container with
  | none => simp [strategy4, hco] at h
  | some cont =>
    simp only [strategy4, hco] at h
    by_cases hres : cont.children.filterMap childMsg = []
    · rw [if_neg (by simp [hres])] at h
      cases hit : cont.innerText with
      | none => simp [hit] at h
      | some raw =>
        simp only [hit] at h
        by_cases hemp : jsTrim raw = []
        · rw [if_pos hemp] at h
          cases h
        · rw [if_neg hemp] at h
          rcases List.mem_singleton.mp h with rfl
          exact ⟨⟨raw, rfl, hemp⟩, Or.inr (Or.inr rfl)⟩
    · rw [if_pos hres] at h
      rcases List.mem_filterMap.mp h with ⟨el, _, hel⟩
      obtain ⟨raw, _, hc, hl, hr⟩ := childMsg_some hel
      refine ⟨⟨raw, hc, ?_⟩, ?_⟩
      · intro he
        rw [he] at hl
        simp at hl
      · rcases hr with h1 | h1
        · exact Or.inl h1
        · exact Or.inr (Or.inl h1)

lemma extract_mem_strategies {p : PageState} {m : Msg} (h : m ∈ extractMessages p) :
    m ∈ strategy1 p ∨ m ∈ strategy2 p ∨ m ∈ strategy3 p ∨ m ∈ strategy4 p := by
  rw [extractMessages_eq p] at h
  split_ifs at h with h1 h2 h3
  · exact Or.inl h
  · exact Or.inr (Or.inl h)
  · exact Or.inr (Or.inr (Or.inl h))
  · exact Or.inr (Or.inr (Or.inr h))

/-! ## Content and role invariants -/

lemma trimmed_content_ne {m : Msg} {raw : Str}
    (hc : m.content = jsTrim raw) (hne : m.content ≠ []) : jsTrim m.content ≠ [] := by
  rw [hc, jsTrim_idem, ← hc]
  exact hne

lemma ne_nil_of_one_lt {m : Msg} (h : 1 < m.content.length) : m.content ≠ [] := by
  intro he
  rw [he] at h
  simp at h

/-- C5: whichever strategy produced them — the last-resort fallback included —
messages returned by the extraction script never have empty trimmed content. -/
theorem extract_no_empty_content (p : PageState) (m : Msg) (h : m ∈ extractMessages p) :
    jsTrim m.content ≠ [] := by
  rcases extract_mem_strategies h with h1 | h2 | h3 | h4
  · obtain ⟨raw, hc, hl, _⟩ := strategy1_mem h1
    exact trimmed_content_ne hc (ne_nil_of_one_lt hl)
  · obtain ⟨raw, hc, hl, _⟩ := strategy2_mem h2
    exact trimmed_content_ne hc (ne_nil_of_one_lt hl)
  · obtain ⟨raw, hc, hne, _⟩ := strategy3_mem h3
    exact trimmed_content_ne hc hne
  · obtain ⟨⟨raw, hc, hne⟩, _⟩ := strategy4_mem h4
    exact trimmed_content_ne hc hne

/-- A concrete page whose turn elements fire Strategy 1. -/
def demoPage1 : PageState :=
  { turns := [{ tagName := "USER-QUERY".data, classes := [], hasUserDescendant := false,
                innerText := some "  Hi there ".data }],
    queryEls := [], responseEls := [], dataEls := [], container := none }

theorem extract_no_empty_content_witness :
    jsTrim "Hi there".data ≠ [] :=
  extract_no_empty_content demoPage1
    { role := "User", content := "Hi there".data } (by decide)

/-- C7: Strategy 2 merges the query elements (tagged role User) and the
response elements (tagged role Assistant/Gemini) into one list, sorts it by
vertical position ascending, then filters; the kept entries are a permutation
of the merged entries passing the content filter, the result is ascending in
`y` (so the returned messages follow the source elements' vertical order), every
entry of empty content is filtered out, and the messages are the projection of
the kept entries to role and content. -/
theorem strategy2_sorted_merge (p : PageState) :
    List.Sorted yle (cleanedTurns p) ∧
    (cleanedTurns p).Perm ((taggedTurns p).filter turnKeep) ∧
    strategy2 p = (cleanedTurns p).map turnProj ∧
    (∀ t ∈ taggedTurns p, t.content = some [] → t ∉ cleanedTurns p) ∧
    (∀ m ∈ strategy2 p, m.content ≠ []) := by
  refine ⟨?_, ?_, rfl, ?_, ?_⟩
  · exact List.Pairwise.filter turnKeep (List.sorted_insertionSort yle (taggedTurns p))
  · exact (List.perm_insertionSort yle (taggedTurns p)).filter turnKeep
  · intro t _ hc hmem
    have hk : turnKeep t = true := List.of_mem_filter hmem
    rw [turnKeep, hc] at hk
    simp at hk
  · intro m hm
    obtain ⟨raw, hc, hl, _⟩ := strategy2_mem hm
    exact ne_nil_of_one_lt hl

/-- A concrete page whose paired query/response regions fire Strategy 2:
a response above, a query below. -/
def demoPage2 : PageState :=
  { turns := [],
    queryEls := [{ innerText := some " Ask ".data, y := 40 }],
    responseEls := [{ innerText := some " Answer ".data, y := 10 }],
    dataEls := [], container := none }

theorem strategy2_sorted_merge_witness :
    ("Answer".data : Str) ≠ [] :=
  (strategy2_sorted_merge demoPage2).2.2.2.2
    { role := "Gemini", content := "Answer".data } (by decide)

lemma strategy4_unknown {p : PageState} {m : Msg} (h : m ∈ strategy4 p)
    (hu : m.role = "Unknown") :
    ∃ cont raw, p.container = some cont ∧ cont.innerText = some raw ∧
      cont.children.filterMap childMsg = [] ∧
      strategy4 p = [{ role := "Unknown", content := jsTrim raw }] ∧
      m = { role := "Unknown", content := jsTrim raw } := by
  cases hco : p.container with
  | none => simp [strategy4, hco] at h
  | some cont =>
    simp only [strategy4, hco] at h
    by_cases hres : cont.children.filterMap childMsg = []
    · rw [if_neg (by simp [hres])] at h
      cases hit : cont.innerText with
      | none => simp [hit] at h
      | some raw =>
        simp only [hit] at h
        by_cases hemp : jsTrim raw = []
        · rw [if_pos hemp] at h
          cases h
        · rw [if_neg hemp] at h
          rcases List.mem_singleton.mp h with rfl
          refine ⟨cont, raw, rfl, hit, hres, ?_, rfl⟩
          simp [strategy4, hco, hres, hit, hemp]
    · rw [if_pos hres] at h
      exfalso
      rcases List.mem_filterMap.mp h with ⟨el, _, hel⟩
      obtain ⟨_, _, _, _, hrole⟩ := childMsg_some hel
      rcases hrole with hr | hr <;> rw [hr] at hu <;> exact absurd hu (by decide)

/-- C9: every extracted message's role is one of the strings User, Gemini and
Unknown, and Unknown arises only from Strategy 4's last resort, in which case
the whole result is the one message carrying the conversation container's
entire (trimmed) visible text, produced because no usable direct child was
found. -/
theorem extract_roles (p : PageState) (m : Msg) (h : m ∈ extractMessages p) :
    (m.role = "User" ∨ m.role = "Gemini" ∨ m.role = "Unknown") ∧
    (m.role = "Unknown" →
      ∃ cont raw, p.container = some cont ∧ cont.innerText = some raw ∧
        cont.children.filterMap childMsg = [] ∧
        extractMessages p = [{ role := "Unknown", content := jsTrim raw }]) := by
  constructor
  · rcases extract_mem_strategies h with h1 | h2 | h3 | h4
    · obtain ⟨_, _, _, hrole⟩ := strategy1_mem h1
      rcases hrole with hr | hr
      · exact Or.inl hr
      · exact Or.inr (Or.inl hr)
    · obtain ⟨_, _, _, hrole⟩ := strategy2_mem h2
      rcases hrole with hr | hr
      · exact Or.inl hr
      · exact Or.inr (Or.inl hr)
    · obtain ⟨_, _, _, hrole⟩ := strategy3_mem h3
      rcases hrole with hr | hr
      · exact Or.inl hr
      · exact Or.inr (Or.inl hr)
    · exact (strategy4_mem h4).2
  · intro hu
    rw [extractMessages_eq p] at h
    split_ifs at h with h1 h2 h3
    · exfalso
      obtain ⟨_, _, _, hrole⟩ := strategy1_mem h
      rcases hrole with hr | hr <;> rw [hr] at hu <;> exact absurd hu (by decide)
    · exfalso
      obtain ⟨_, _, _, hrole⟩ := strategy2_mem h
      rcases hrole with hr | hr <;> rw [hr] at hu <;> exact absurd hu (by decide)
    · exfalso
      obtain ⟨_, _, _, hrole⟩ := strategy3_mem h
      rcases hrole with hr | hr <;> rw [hr] at hu <;> exact absurd hu (by decide)
    · obtain ⟨cont, raw, hco, hit, hres, hs4, _⟩ := strategy4_unknown h hu
      refine ⟨cont, raw, hco, hit, hres, ?_⟩
      rw [extractMessages_eq p, if_neg h1, if_neg h2, if_neg h3]
      exact hs4

/-- A concrete page where only the last resort applies: a container with no
usable children but visible text. -/
def demoPage4 : PageState :=
  { turns := [], queryEls := [], responseEls := [], dataEls := [],
    container := some { children := [], innerText := some " raw dump ".data } }

theorem extract_roles_witness :
    (Msg.mk "Unknown" "raw dump".data).role = "User" ∨
    (Msg.mk "Unknown" "raw dump".data).role = "Gemini" ∨
    (Msg.mk "Unknown" "raw dump".data).role = "Unknown" :=
  (extract_roles demoPage4 (Msg.mk "Unknown" "raw dump".data) (by decide)).1

/-- A concrete page on which only Strategy 3 fires, with a single-character
message that Strategies 1, 2 and 4 would all have discarded. -/
def demoPage3 : PageState :=
  { turns := [], queryEls := [], responseEls := [],
    dataEls := [{ role := "user", innerText := some " a ".data }],
    container := none }

/-- C10: Strategies 1 and 2 keep only elements whose trimmed text has length
greater than 1, Strategy 4 keeps only children whose trimmed text has length at
least 2, but Strategy 3 keeps any element whose trimmed text is non-empty; so
there is a page where extraction returns, via Strategy 3, a single-character
message that every other strategy's filter would have discarded. -/
theorem strategy_length_thresholds :
    (∀ p : PageState, ∀ m ∈ strategy1 p, 1 < m.content.length) ∧
    (∀ p : PageState, ∀ m ∈ strategy2 p, 1 < m.content.length) ∧
    (∀ el : ChildEl, ∀ m : Msg, childMsg el = some m → 2 ≤ m.content.length) ∧
    (∀ d : DataEl, ∀ m : Msg, dataMsg d = some m → m.content ≠ []) ∧
    (∃ p : PageState, ∃ m : Msg, extractMessages p = [m] ∧ m ∈ strategy3 p ∧
      m.content.length = 1) := by
  refine ⟨?_, ?_, ?_, ?_, ?_⟩
  · intro p m h
    obtain ⟨_, _, hl, _⟩ := strategy1_mem h
    exact hl
  · intro p m h
    obtain ⟨_, _, hl, _⟩ := strategy2_mem h
    exact hl
  · intro el m h
    obtain ⟨_, _, _, hl, _⟩ := childMsg_some h
    exact hl
  · intro d m h
    obtain ⟨_, _, _, hne, _⟩ := dataMsg_some h
    exact hne
  · exact ⟨demoPage3, Msg.mk "User" ['a'], by decide, by decide, rfl⟩

theorem strategy_length_thresholds_witness :
    (Msg.mk "User" ['a']).content ≠ [] :=
  strategy_length_thresholds.2.2.2.1
    { role := "user", innerText := some " a ".data } (Msg.mk "User" ['a']) (by decide)
